import Mathlib

/-!
Shallow embedding of the `sequences` alignment library.

The token scoring function, the exposed result record and the batch loop
follow `src/src/lib.rs` directly.  The Needleman-Wunsch matrix fill, the
traceback, the zero-length failure of matrix construction and the
similarity scorer live in the external alignment engine (the `seal`
crate) and the host-language layer, which are not part of `src/`; those
are modelled from the specification, as marked on each definition.
-/

/-- Tokens are the string items of the input sequences (Rust `&str`). -/
abbrev Token := String

/-- A similarity table maps ordered token pairs to integer scores
(the Rust `HashMap<(&str, &str), isize>`). -/
abbrev ScoreTable := List ((Token × Token) × Int)

/-- Exact ordered-key lookup in a score table, first match wins;
this models `matrix.get(&(x, y))` on the Rust `HashMap`. -/
def lookupTable : ScoreTable → Token × Token → Option Int
  | [], _ => none
  | e :: rest, k => if e.1 = k then some e.2 else lookupTable rest k

/-- Token scoring from `matrix_match_fn` in src/src/lib.rs: try the table
at `(x, y)`, then at `(y, x)`, otherwise `1` for equal tokens and `-1`
for distinct ones; with no table, just the equality rule. -/
def matrix_match_fn (similarity_matrix : Option ScoreTable) (x y : Token) : Int :=
  match similarity_matrix with
  | some matrix =>
    match lookupTable matrix (x, y) with
    | some score => score
    | none =>
      match lookupTable matrix (y, x) with
      | some score => score
      | none => if x = y then 1 else -1
  | none => if x = y then 1 else -1

/-- Alignment steps of the engine (the `seal` crate's `Step` type, as
matched on in src/src/lib.rs): consume from both sequences, from the
first only, or from the second only. -/
inductive Step where
  | align (x y : Nat)
  | delete (x : Nat)
  | insert (y : Nat)
deriving DecidableEq, Repr

/-- Byte tag exposed for each step in src/src/lib.rs:
Align ↦ 0, Delete ↦ 1, Insert ↦ 2. -/
def stepTag : Step → Nat
  | .align _ _ => 0
  | .delete _ => 1
  | .insert _ => 2

/-- Result record of src/src/lib.rs (`AlignmentResult`): the step tags
and the signed alignment score. -/
structure AlignmentResult where
  steps : List Nat
  score : Int
deriving DecidableEq, Repr

/-- Modelled from the spec: one row of the Needleman-Wunsch matrix
(§4.2), built from the previous row `prev`, the comparison scores
`cmpi j = compare(a[i], b[j])` of the current row index, the gap score
and the row's first cell `base = (i+1) * gap_score`. -/
def HrowAux (prev : Nat → Int) (cmpi : Nat → Int) (gap base : Int) : Nat → Int
  | 0 => base
  | j + 1 =>
    max (max (prev j + cmpi j) (prev (j + 1) + gap))
      (HrowAux prev cmpi gap base j + gap)

/-- Modelled from the spec: the Needleman-Wunsch dynamic-programming
table of §4.2 (the `seal` crate's matrix fill, absent from src/).
`Hmat cmp gap i j` is `H[i][j]` for `compare = cmp` and linear gap
penalty `gap`: `H[0][j] = j * gap`, `H[i+1][0] = (i+1) * gap`, and
`H[i+1][j+1] = max(H[i][j] + cmp i j, H[i][j+1] + gap, H[i+1][j] + gap)`. -/
def Hmat (cmp : Nat → Nat → Int) (gap : Int) : Nat → Nat → Int
  | 0 => fun j => (j : Int) * gap
  | i + 1 => HrowAux (Hmat cmp gap i) (cmp i) gap (((i : Int) + 1) * gap)

/-- Modelled from the spec: traceback inside row `i+1` (§4.3).  `prev`
is the traceback landing at row `i`, `Hprev`/`Hcur` are rows `i` and
`i+1` of the matrix.  The diagonal (Align) branch is preferred over
Delete, and Delete over Insert; steps are returned already in forward
order (the spec emits them reversed and reverses at the end). -/
def tracebackRow (cmp : Nat → Nat → Int) (gap : Int) (prev : Nat → List Step)
    (Hprev Hcur : Nat → Int) (i : Nat) : Nat → List Step
  | 0 => prev 0 ++ [Step.delete i]
  | j + 1 =>
    if Hcur (j + 1) = Hprev j + cmp i j then prev j ++ [Step.align i j]
    else if Hcur (j + 1) = Hprev (j + 1) + gap then prev (j + 1) ++ [Step.delete i]
    else tracebackRow cmp gap prev Hprev Hcur i j ++ [Step.insert j]

/-- Modelled from the spec: the full traceback of §4.3 from cell
`(i, j)` back to the origin (the `seal` crate's global alignment path,
absent from src/), with the boundary rows emitting only Insert/Delete. -/
def traceback (cmp : Nat → Nat → Int) (gap : Int) : Nat → Nat → List Step
  | 0 => fun j => (List.range j).map Step.insert
  | i + 1 => fun j =>
    tracebackRow cmp gap (traceback cmp gap i) (Hmat cmp gap i)
      (Hmat cmp gap (i + 1)) i j

/-- Comparison function the wrapper passes to the engine in
src/src/lib.rs: `|x, y| match_fn(a[x], b[y])`. -/
def cmpFn (a b : List Token) (tbl : Option ScoreTable) : Nat → Nat → Int :=
  fun x y => matrix_match_fn tbl (a.getD x "") (b.getD y "")

/-- Modelled from the spec: the descriptive message of the InvalidInput
error raised when a sequence length is zero (§4.2, §7), surfaced by
src/src/lib.rs as a value error. -/
def invalidInputMsg : String := "Invalid input: sequence length must be greater than zero"

/-- The optimal alignment score `H[n][m]` used by `align` (§4.3: the
overall score is the bottom-right matrix cell). -/
def alignScore (a b : List Token) (tbl : Option ScoreTable) : Int :=
  Hmat (cmpFn a b tbl) (-1) a.length b.length

/-- The engine's optimal step sequence for the two inputs, before the
wrapper reduces it to byte tags. -/
def alignSteps (a b : List Token) (tbl : Option ScoreTable) : List Step :=
  traceback (cmpFn a b tbl) (-1) a.length b.length

/-- The `align` entry point of src/src/lib.rs: zero-length inputs make
matrix construction fail (modelled from the spec, the check lives in the
engine) and the error is surfaced as a value error; otherwise the step
tags and the score of the global alignment are returned. -/
def align (a b : List Token) (tbl : Option ScoreTable) : Except String AlignmentResult :=
  if a.length = 0 ∨ b.length = 0 then Except.error invalidInputMsg
  else Except.ok { steps := (alignSteps a b tbl).map stepTag, score := alignScore a b tbl }

/-- The unordered index pairs `(x, y)`, `x < y`, in the order produced
by `(0..len).combinations(2)` in src/src/lib.rs. -/
def pairKeys (k : Nat) : List (Nat × Nat) :=
  (List.range k).flatMap fun x => (List.range' (x + 1) (k - (x + 1))).map fun y => (x, y)

/-- The pair loop of `align_set` in src/src/lib.rs: align each index
pair in order; the first failing pair aborts the whole batch with its
error and no mapping is returned. -/
def alignSetGo (seqs : List (List Token)) (tbl : Option ScoreTable) :
    List (Nat × Nat) → Except String (List ((Nat × Nat) × AlignmentResult))
  | [] => Except.ok []
  | p :: rest =>
    match align (seqs.getD p.1 []) (seqs.getD p.2 []) tbl with
    | Except.ok r =>
      match alignSetGo seqs tbl rest with
      | Except.ok m => Except.ok ((p, r) :: m)
      | Except.error e => Except.error e
    | Except.error e => Except.error e

/-- The `align_set` entry point of src/src/lib.rs: all pairwise
alignments of the input collection, keyed by index pair. -/
def align_set (seqs : List (List Token)) (tbl : Option ScoreTable) :
    Except String (List ((Nat × Nat) × AlignmentResult)) :=
  alignSetGo seqs tbl (pairKeys seqs.length)

/-- The sequence-A position consumed by a step, if any (Align and
Delete consume from A). -/
def stepX : Step → Option Nat
  | .align x _ => some x
  | .delete x => some x
  | .insert _ => none

/-- The sequence-B position consumed by a step, if any (Align and
Insert consume from B). -/
def stepY : Step → Option Nat
  | .align _ y => some y
  | .insert y => some y
  | .delete _ => none

/-- Step `s` precedes step `t`: every position either consumes is at
most the corresponding position of the other. -/
def stepLE (s t : Step) : Prop :=
  (∀ x ∈ stepX s, ∀ x2 ∈ stepX t, x ≤ x2) ∧ (∀ y ∈ stepY s, ∀ y2 ∈ stepY t, y ≤ y2)

/-- The `(x, y)` position pairs of the Align steps of a step list. -/
def alignedPairs (steps : List Step) : List (Nat × Nat) :=
  steps.filterMap fun s =>
    match s with
    | .align x y => some (x, y)
    | _ => none

/-- Modelled from the spec: the similarity scorer of §4.4 (absent from
src/, which exposes only tags and score).  Over the Align steps whose
tokens are literally equal it accumulates their count `num_correct` and
their compare-score sum `dis_correct`; with no such step it returns the
sentinel `-1`; otherwise it returns `sim_align * sim_significance` with
`sim_align = 0` if `dis_correct = 0` and `score / dis_correct` else, and
`sim_significance = num_correct / total_step_count`. -/
def evaluate (tbl : Option ScoreTable) (a b : List Token) (steps : List Step)
    (score : Int) : ℚ :=
  let correct := (alignedPairs steps).filter fun p => a.getD p.1 "" = b.getD p.2 ""
  let num_correct : Nat := correct.length
  let dis_correct : Int :=
    (correct.map fun p => matrix_match_fn tbl (a.getD p.1 "") (b.getD p.2 "")).sum
  if num_correct = 0 then -1
  else
    (if dis_correct = 0 then 0 else (score : ℚ) / (dis_correct : ℚ)) *
      ((num_correct : ℚ) / (steps.length : ℚ))

/-! ### Helper lemmas -/

theorem Hmat_zero_left (cmp : Nat → Nat → Int) (gap : Int) (j : Nat) :
    Hmat cmp gap 0 j = (j : Int) * gap := rfl

theorem Hmat_zero_right (cmp : Nat → Nat → Int) (gap : Int) (i : Nat) :
    Hmat cmp gap i 0 = (i : Int) * gap := by
  cases i with
  | zero => simp [Hmat]
  | succ n => simp [Hmat, HrowAux]

theorem Hmat_succ_succ (cmp : Nat → Nat → Int) (gap : Int) (i j : Nat) :
    Hmat cmp gap (i + 1) (j + 1) =
      max (max (Hmat cmp gap i j + cmp i j) (Hmat cmp gap i (j + 1) + gap))
        (Hmat cmp gap (i + 1) j + gap) := rfl

theorem align_ok_iff (a b : List Token) (tbl : Option ScoreTable) (r : AlignmentResult) :
    align a b tbl = Except.ok r ↔
      a ≠ [] ∧ b ≠ [] ∧ r = { steps := (alignSteps a b tbl).map stepTag,
                              score := alignScore a b tbl } := by
  unfold align
  split
  · next h =>
    constructor
    · intro hc
      cases hc
    · rintro ⟨ha, hb, -⟩
      rcases h with h | h
      · exact absurd (List.length_eq_zero.mp h) ha
      · exact absurd (List.length_eq_zero.mp h) hb
  · next h =>
    have ha : a ≠ [] := fun hh => h (Or.inl (by simp [hh]))
    have hb : b ≠ [] := fun hh => h (Or.inr (by simp [hh]))
    simp [ha, hb, eq_comm]


theorem length_filterMap_eq_countP {α β : Type} (f : α → Option β) :
    ∀ l : List α, (l.filterMap f).length = l.countP fun a => (f a).isSome := by
  intro l
  induction l with
  | nil => rfl
  | cons a l ih =>
    cases h : f a <;> simp [List.filterMap_cons, h, List.countP_cons, ih]

theorem tracebackRow_filterMap_stepX (cmp : Nat → Nat → Int) (gap : Int)
    (prev : Nat → List Step) (Hprev Hcur : Nat → Int) (i : Nat)
    (hprev : ∀ j, (prev j).filterMap stepX = List.range i) :
    ∀ j, (tracebackRow cmp gap prev Hprev Hcur i j).filterMap stepX = List.range (i + 1) := by
  intro j
  induction j with
  | zero => simp [tracebackRow, hprev 0, stepX, List.range_succ]
  | succ j ih =>
    rw [tracebackRow]
    split
    · simp [hprev j, stepX, List.range_succ]
    split
    · simp [hprev (j + 1), stepX, List.range_succ]
    · simp [ih, stepX]

theorem tracebackRow_filterMap_stepY (cmp : Nat → Nat → Int) (gap : Int)
    (prev : Nat → List Step) (Hprev Hcur : Nat → Int) (i : Nat)
    (hprev : ∀ j, (prev j).filterMap stepY = List.range j) :
    ∀ j, (tracebackRow cmp gap prev Hprev Hcur i j).filterMap stepY = List.range j := by
  intro j
  induction j with
  | zero => simp [tracebackRow, hprev 0, stepY]
  | succ j ih =>
    rw [tracebackRow]
    split
    · simp [hprev j, stepY, List.range_succ]
    split
    · simp [hprev (j + 1), stepY]
    · simp [ih, stepY, List.range_succ]

theorem traceback_filterMap_stepX (cmp : Nat → Nat → Int) (gap : Int) :
    ∀ i j, (traceback cmp gap i j).filterMap stepX = List.range i := by
  intro i
  induction i with
  | zero =>
    intro j
    simp [traceback, List.filterMap_map, stepX, Function.comp]
  | succ i ih =>
    intro j
    exact tracebackRow_filterMap_stepX cmp gap (traceback cmp gap i)
      (Hmat cmp gap i) (Hmat cmp gap (i + 1)) i ih j

theorem traceback_filterMap_stepY (cmp : Nat → Nat → Int) (gap : Int) :
    ∀ i j, (traceback cmp gap i j).filterMap stepY = List.range j := by
  intro i
  induction i with
  | zero =>
    intro j
    have hcomp : stepY ∘ Step.insert = some := rfl
    simp [traceback, List.filterMap_map, hcomp]
  | succ i ih =>
    intro j
    exact tracebackRow_filterMap_stepY cmp gap (traceback cmp gap i)
      (Hmat cmp gap i) (Hmat cmp gap (i + 1)) i ih j

theorem tracebackRow_bound (cmp : Nat → Nat → Int) (gap : Int)
    (prev : Nat → List Step) (Hprev Hcur : Nat → Int) (i : Nat)
    (hprev : ∀ j s, s ∈ prev j → (∀ x ∈ stepX s, x < i) ∧ (∀ y ∈ stepY s, y < j)) :
    ∀ j s, s ∈ tracebackRow cmp gap prev Hprev Hcur i j →
      (∀ x ∈ stepX s, x < i + 1) ∧ (∀ y ∈ stepY s, y < j) := by
  intro j
  induction j with
  | zero =>
    intro s hs
    rw [tracebackRow, List.mem_append] at hs
    rcases hs with hs | hs
    · exact ⟨fun x hx => Nat.lt_succ_of_lt ((hprev 0 s hs).1 x hx),
        (hprev 0 s hs).2⟩
    · rcases List.mem_singleton.mp hs with rfl
      constructor <;> simp [stepX, stepY]
  | succ j ih =>
    intro s hs
    rw [tracebackRow] at hs
    split at hs
    · rw [List.mem_append] at hs
      rcases hs with hs | hs
      · exact ⟨fun x hx => Nat.lt_succ_of_lt ((hprev j s hs).1 x hx),
          fun y hy => Nat.lt_succ_of_lt ((hprev j s hs).2 y hy)⟩
      · rcases List.mem_singleton.mp hs with rfl
        constructor <;> simp [stepX, stepY]
    split at hs
    · rw [List.mem_append] at hs
      rcases hs with hs | hs
      · exact ⟨fun x hx => Nat.lt_succ_of_lt ((hprev (j + 1) s hs).1 x hx),
          (hprev (j + 1) s hs).2⟩
      · rcases List.mem_singleton.mp hs with rfl
        constructor <;> simp [stepX, stepY]
    · rw [List.mem_append] at hs
      rcases hs with hs | hs
      · exact ⟨(ih s hs).1, fun y hy => Nat.lt_succ_of_lt ((ih s hs).2 y hy)⟩
      · rcases List.mem_singleton.mp hs with rfl
        constructor <;> simp [stepX, stepY]

theorem traceback_bound (cmp : Nat → Nat → Int) (gap : Int) :
    ∀ i j s, s ∈ traceback cmp gap i j →
      (∀ x ∈ stepX s, x < i) ∧ (∀ y ∈ stepY s, y < j) := by
  intro i
  induction i with
  | zero =>
    intro j s hs
    rw [traceback, List.mem_map] at hs
    rcases hs with ⟨y, hy, rfl⟩
    constructor <;> simp [stepX, stepY]
    exact List.mem_range.mp hy
  | succ i ih =>
    intro j s hs
    exact tracebackRow_bound cmp gap (traceback cmp gap i) (Hmat cmp gap i)
      (Hmat cmp gap (i + 1)) i (fun j => ih j) j s hs

theorem stepLE_align_of {s : Step} {i j : Nat}
    (hx : ∀ x ∈ stepX s, x ≤ i) (hy : ∀ y ∈ stepY s, y ≤ j) :
    stepLE s (Step.align i j) := by
  constructor
  · intro x hxm x2 hx2
    simp [stepX] at hx2
    subst hx2
    exact hx x hxm
  · intro y hym y2 hy2
    simp [stepY] at hy2
    subst hy2
    exact hy y hym

theorem stepLE_delete_of {s : Step} {i : Nat} (hx : ∀ x ∈ stepX s, x ≤ i) :
    stepLE s (Step.delete i) := by
  constructor
  · intro x hxm x2 hx2
    simp [stepX] at hx2
    subst hx2
    exact hx x hxm
  · intro y hym y2 hy2
    simp [stepY] at hy2

theorem stepLE_insert_of {s : Step} {j : Nat} (hy : ∀ y ∈ stepY s, y ≤ j) :
    stepLE s (Step.insert j) := by
  constructor
  · intro x hxm x2 hx2
    simp [stepX] at hx2
  · intro y hym y2 hy2
    simp [stepY] at hy2
    subst hy2
    exact hy y hym

theorem tracebackRow_pairwise (cmp : Nat → Nat → Int) (gap : Int)
    (prev : Nat → List Step) (Hprev Hcur : Nat → Int) (i : Nat)
    (hB : ∀ j s, s ∈ prev j → (∀ x ∈ stepX s, x < i) ∧ (∀ y ∈ stepY s, y < j))
    (hP : ∀ j, List.Pairwise stepLE (prev j)) :
    ∀ j, List.Pairwise stepLE (tracebackRow cmp gap prev Hprev Hcur i j) := by
  intro j
  induction j with
  | zero =>
    rw [tracebackRow, List.pairwise_append]
    refine ⟨hP 0, List.pairwise_singleton _ _, ?_⟩
    intro s hs t ht
    rcases List.mem_singleton.mp ht with rfl
    exact stepLE_delete_of fun x hx => Nat.le_of_lt ((hB 0 s hs).1 x hx)
  | succ j ih =>
    rw [tracebackRow]
    split
    · rw [List.pairwise_append]
      refine ⟨hP j, List.pairwise_singleton _ _, ?_⟩
      intro s hs t ht
      rcases List.mem_singleton.mp ht with rfl
      exact stepLE_align_of (fun x hx => Nat.le_of_lt ((hB j s hs).1 x hx))
        (fun y hy => Nat.le_of_lt ((hB j s hs).2 y hy))
    split
    · rw [List.pairwise_append]
      refine ⟨hP (j + 1), List.pairwise_singleton _ _, ?_⟩
      intro s hs t ht
      rcases List.mem_singleton.mp ht with rfl
      exact stepLE_delete_of fun x hx => Nat.le_of_lt ((hB (j + 1) s hs).1 x hx)
    · rw [List.pairwise_append]
      refine ⟨ih, List.pairwise_singleton _ _, ?_⟩
      intro s hs t ht
      rcases List.mem_singleton.mp ht with rfl
      refine stepLE_insert_of fun y hy => Nat.le_of_lt ?_
      exact (tracebackRow_bound cmp gap prev Hprev Hcur i hB j s hs).2 y hy

theorem traceback_pairwise (cmp : Nat → Nat → Int) (gap : Int) :
    ∀ i j, List.Pairwise stepLE (traceback cmp gap i j) := by
  intro i
  induction i with
  | zero =>
    intro j
    rw [traceback, List.pairwise_map]
    refine (List.pairwise_lt_range j).imp ?_
    intro a b h
    refine stepLE_insert_of fun y hy => ?_
    simp [stepY] at hy
    omega
  | succ i ih =>
    intro j
    exact tracebackRow_pairwise cmp gap (traceback cmp gap i) (Hmat cmp gap i)
      (Hmat cmp gap (i + 1)) i (fun j s hs => traceback_bound cmp gap i j s hs) ih j

theorem map_const_replicate {α β : Type} (f : α → β) (c : β) (hf : ∀ a, f a = c) :
    ∀ l : List α, l.map f = List.replicate l.length c := by
  intro l
  induction l with
  | nil => rfl
  | cons a l ih => simp [hf, ih, List.replicate_succ]

theorem Hmat_le (cmp : Nat → Nat → Int) (hcmp : ∀ i j, cmp i j ≤ 1) :
    ∀ i j, Hmat cmp (-1) i j ≤ (i : Int) ∧ Hmat cmp (-1) i j ≤ (j : Int) := by
  intro i
  induction i with
  | zero =>
    intro j
    rw [Hmat_zero_left, mul_neg_one]
    have hj : (0 : Int) ≤ (j : Int) := Int.natCast_nonneg j
    constructor <;> omega
  | succ i ih =>
    intro j
    induction j with
    | zero =>
      rw [Hmat_zero_right, mul_neg_one]
      have hi : (0 : Int) ≤ (i : Int) := Int.natCast_nonneg i
      push_cast
      constructor <;> omega
    | succ j ihj =>
      rw [Hmat_succ_succ]
      obtain ⟨h1a, h1b⟩ := ih j
      obtain ⟨h2a, h2b⟩ := ih (j + 1)
      obtain ⟨h3a, h3b⟩ := ihj
      have h4 := hcmp i j
      constructor <;> refine max_le (max_le ?_ ?_) ?_ <;> push_cast at * <;> omega

theorem Hmat_diag (cmp : Nat → Nat → Int) (hcmp : ∀ i j, cmp i j ≤ 1)
    (hdiag : ∀ i, cmp i i = 1) : ∀ i, Hmat cmp (-1) i i = (i : Int) := by
  intro i
  induction i with
  | zero => simp [Hmat_zero_left]
  | succ i ih =>
    rw [Hmat_succ_succ, hdiag i, ih]
    obtain ⟨h2a, h2b⟩ := Hmat_le cmp hcmp i (i + 1)
    obtain ⟨h3a, h3b⟩ := Hmat_le cmp hcmp (i + 1) i
    push_cast at *
    omega

theorem traceback_diag (cmp : Nat → Nat → Int) (hcmp : ∀ i j, cmp i j ≤ 1)
    (hdiag : ∀ i, cmp i i = 1) :
    ∀ i, traceback cmp (-1) i i = (List.range i).map fun t => Step.align t t := by
  intro i
  induction i with
  | zero => rfl
  | succ i ih =>
    have hcell : Hmat cmp (-1) (i + 1) (i + 1) = Hmat cmp (-1) i i + cmp i i := by
      rw [Hmat_diag cmp hcmp hdiag, Hmat_diag cmp hcmp hdiag, hdiag i]
      push_cast
      ring
    show tracebackRow cmp (-1) (traceback cmp (-1) i) (Hmat cmp (-1) i)
      (Hmat cmp (-1) (i + 1)) i (i + 1) = _
    rw [tracebackRow, if_pos hcell, ih, List.range_succ, List.map_append, List.map_singleton]

theorem two_mul_sum_range : ∀ n : Nat, 2 * (List.range n).sum = n * (n - 1) := by
  intro n
  induction n with
  | zero => rfl
  | succ m ih =>
    rw [List.range_succ, List.sum_append]
    simp only [List.sum_cons, List.sum_nil, Nat.add_zero, Nat.succ_sub_one]
    rw [Nat.mul_add, ih]
    cases m with
    | zero => rfl
    | succ t =>
      simp only [Nat.succ_sub_one]
      ring

theorem map_sub_range : ∀ k, ((List.range k).map fun x => k - (x + 1)).sum = (List.range k).sum := by
  intro k
  have hf : ((List.range k).map fun x => k - (x + 1)) = (List.range' 0 k).reverse := by
    rw [List.reverse_range']
    apply List.map_congr_left
    intro x hx
    omega
  rw [hf, List.sum_reverse, ← List.range_eq_range']

theorem length_pairKeys : ∀ k, (pairKeys k).length = k * (k - 1) / 2 := by
  intro k
  have h1 : (pairKeys k).length = ((List.range k).map fun x => k - (x + 1)).sum := by
    rw [pairKeys, List.length_flatMap]
    refine congrArg List.sum (List.map_congr_left ?_)
    intro x hx
    simp [List.length_map, List.length_range', Function.comp]
  have h2 := map_sub_range k
  have h3 := two_mul_sum_range k
  omega

theorem mem_pairKeys {k x y : Nat} :
    (x, y) ∈ pairKeys k ↔ x < y ∧ y < k := by
  simp only [pairKeys, List.mem_flatMap, List.mem_map, List.mem_range, List.mem_range'_1]
  constructor
  · rintro ⟨x2, hx2, y2, hy2, heq⟩
    cases heq
    omega
  · rintro ⟨hxy, hyk⟩
    exact ⟨x, by omega, y, by constructor <;> omega, rfl⟩

theorem alignSetGo_ok (seqs : List (List Token)) (tbl : Option ScoreTable) :
    ∀ ps : List (Nat × Nat),
      (∀ p ∈ ps, ∃ r, align (seqs.getD p.1 []) (seqs.getD p.2 []) tbl = Except.ok r) →
      ∃ m, alignSetGo seqs tbl ps = Except.ok m
        ∧ m.map Prod.fst = ps
        ∧ ∀ q ∈ m, align (seqs.getD q.1.1 []) (seqs.getD q.1.2 []) tbl = Except.ok q.2 := by
  intro ps
  induction ps with
  | nil =>
    intro hp
    exact ⟨[], rfl, rfl, by intro q hq; cases hq⟩
  | cons p rest ih =>
    intro hp
    obtain ⟨r, hr⟩ := hp p (List.mem_cons_self p rest)
    obtain ⟨m, hm, hkeys, hall⟩ := ih fun q hq => hp q (List.mem_cons_of_mem p hq)
    refine ⟨(p, r) :: m, ?_, ?_, ?_⟩
    · rw [alignSetGo, hr, hm]
    · simp [hkeys]
    · intro q hq
      rcases List.mem_cons.mp hq with hq | hq
      · cases hq
        exact hr
      · exact hall q hq

theorem alignSetGo_error (seqs : List (List Token)) (tbl : Option ScoreTable) :
    ∀ ps : List (Nat × Nat),
      (∃ p ∈ ps, ∃ e, align (seqs.getD p.1 []) (seqs.getD p.2 []) tbl = Except.error e) →
      ∃ e, alignSetGo seqs tbl ps = Except.error e
        ∧ ∃ p ∈ ps, align (seqs.getD p.1 []) (seqs.getD p.2 []) tbl = Except.error e := by
  intro ps
  induction ps with
  | nil =>
    rintro ⟨p, hp, -⟩
    cases hp
  | cons p rest ih =>
    rintro ⟨q, hq, e, he⟩
    cases hca : align (seqs.getD p.1 []) (seqs.getD p.2 []) tbl with
    | error e2 =>
      exact ⟨e2, by rw [alignSetGo, hca], p, List.mem_cons_self p rest, hca⟩
    | ok r =>
      have hqrest : q ∈ rest := by
        rcases List.mem_cons.mp hq with hq2 | hq2
        · subst hq2
          rw [hca] at he
          cases he
        · exact hq2
      obtain ⟨e2, hgo, p2, hp2, he2⟩ := ih ⟨q, hqrest, e, he⟩
      refine ⟨e2, ?_, p2, List.mem_cons_of_mem p hp2, he2⟩
      rw [alignSetGo, hca, hgo]

theorem mem_alignedPairs {steps : List Step} {x y : Nat} :
    (x, y) ∈ alignedPairs steps ↔ Step.align x y ∈ steps := by
  rw [alignedPairs, List.mem_filterMap]
  constructor
  · rintro ⟨s, hs, hmatch⟩
    cases s with
    | align x2 y2 =>
      injection hmatch with h2
      cases h2
      exact hs
    | delete x2 => cases hmatch
    | insert y2 => cases hmatch
  · intro hs
    exact ⟨Step.align x y, hs, rfl⟩

/-! ### Claims -/

/-- Claim C1: for every pair of non-empty sequences `a` (length n) and
`b` (length m), the integer score returned by `align` equals `H[n][m]`
of the Needleman-Wunsch table with base cases `H[0][0] = 0`,
`H[i][0] = i * gap_score`, `H[0][j] = j * gap_score` and recurrence
`H[i][j] = max(H[i-1][j-1] + compare(a[i-1], b[j-1]), H[i-1][j] + gap,
H[i][j-1] + gap)`, with `gap_score = -1`. -/
theorem claim_C1_score_is_nw_cell (a b : List Token) (tbl : Option ScoreTable)
    (r : AlignmentResult) (i j : Nat) (h : align a b tbl = Except.ok r) :
    r.score = Hmat (cmpFn a b tbl) (-1) a.length b.length
    ∧ Hmat (cmpFn a b tbl) (-1) 0 0 = 0
    ∧ Hmat (cmpFn a b tbl) (-1) i 0 = (i : Int) * (-1)
    ∧ Hmat (cmpFn a b tbl) (-1) 0 j = (j : Int) * (-1)
    ∧ Hmat (cmpFn a b tbl) (-1) (i + 1) (j + 1) =
        max (max (Hmat (cmpFn a b tbl) (-1) i j + cmpFn a b tbl i j)
            (Hmat (cmpFn a b tbl) (-1) i (j + 1) + (-1)))
          (Hmat (cmpFn a b tbl) (-1) (i + 1) j + (-1)) := by
  obtain ⟨ha, hb, hr⟩ := (align_ok_iff a b tbl r).mp h
  subst hr
  exact ⟨rfl, by simp [Hmat_zero_left], Hmat_zero_right _ _ i,
    Hmat_zero_left _ _ j, Hmat_succ_succ _ _ i j⟩

/-- Concrete instance of claim C1 at `a = ["A"]`, `b = ["B"]`. -/
theorem claim_C1_score_is_nw_cell_witness :
    (AlignmentResult.mk [0] (-1)).score = Hmat (cmpFn ["A"] ["B"] none) (-1) 1 1
    ∧ Hmat (cmpFn ["A"] ["B"] none) (-1) 1 0 = (1 : Int) * (-1)
    ∧ Hmat (cmpFn ["A"] ["B"] none) (-1) 0 1 = (1 : Int) * (-1)
    ∧ Hmat (cmpFn ["A"] ["B"] none) (-1) 2 2 =
        max (max (Hmat (cmpFn ["A"] ["B"] none) (-1) 1 1 + cmpFn ["A"] ["B"] none 1 1)
            (Hmat (cmpFn ["A"] ["B"] none) (-1) 1 2 + (-1)))
          (Hmat (cmpFn ["A"] ["B"] none) (-1) 2 1 + (-1)) := by
  have h := claim_C1_score_is_nw_cell ["A"] ["B"] none (AlignmentResult.mk [0] (-1)) 1 1 (by rfl)
  exact ⟨h.1, h.2.2.1, h.2.2.2.1, h.2.2.2.2⟩

/-- Claim C2: `align(["A","T","C"], ["A","C"])` with the default scoring
(match 1, mismatch -1, gap -1) returns score 1 and step tags [0, 1, 0],
i.e. A aligns A, T is deleted, C aligns C. -/
theorem claim_C2_concrete_scenario :
    align ["A", "T", "C"] ["A", "C"] none =
      Except.ok { steps := [0, 1, 0], score := 1 }
    ∧ alignSteps ["A", "T", "C"] ["A", "C"] none =
      [Step.align 0 0, Step.delete 1, Step.align 2 1] :=
  ⟨rfl, rfl⟩

/-- Claim C3: the scoring function returns the table entry for `(x,y)`
when present, else the entry for `(y,x)` when present, else (or with no
table) 1 for equal tokens and -1 otherwise; in particular an entry
present only under `(x,y)` is honored for the query `(y,x)`. -/
theorem claim_C3_table_lookup (tbl : ScoreTable) (x y : Token) (s : Int) :
    (lookupTable tbl (x, y) = some s → matrix_match_fn (some tbl) x y = s)
    ∧ (lookupTable tbl (x, y) = none → lookupTable tbl (y, x) = some s →
        matrix_match_fn (some tbl) x y = s)
    ∧ (lookupTable tbl (x, y) = none → lookupTable tbl (y, x) = none →
        matrix_match_fn (some tbl) x y = (if x = y then 1 else -1))
    ∧ matrix_match_fn none x y = (if x = y then 1 else -1)
    ∧ (lookupTable tbl (x, y) = some s → lookupTable tbl (y, x) = none →
        matrix_match_fn (some tbl) x y = s ∧ matrix_match_fn (some tbl) y x = s) := by
  refine ⟨fun h1 => ?_, fun h1 h2 => ?_, fun h1 h2 => ?_, rfl, fun h1 h2 => ⟨?_, ?_⟩⟩
  · rw [matrix_match_fn, h1]
  · rw [matrix_match_fn, h1, h2]
  · rw [matrix_match_fn, h1, h2]
  · rw [matrix_match_fn, h1]
  · rw [matrix_match_fn, h2, h1]

/-- Concrete instance of claim C3: the entry stored only under
`("A","B")` is returned for both query orders. -/
theorem claim_C3_table_lookup_witness :
    matrix_match_fn (some [(("A", "B"), 5)]) "A" "B" = 5
    ∧ matrix_match_fn (some [(("A", "B"), 5)]) "B" "A" = 5 :=
  (claim_C3_table_lookup [(("A", "B"), 5)] "A" "B" 5).2.2.2.2 rfl rfl

/-- Claim C4: `align` fails with the InvalidInput value error if and
only if an input sequence is empty, and that is the only failure mode. -/
theorem claim_C4_empty_input_failure (a b : List Token) (tbl : Option ScoreTable) :
    (align a b tbl = Except.error invalidInputMsg ↔ a = [] ∨ b = [])
    ∧ ∀ e, align a b tbl = Except.error e → e = invalidInputMsg := by
  constructor
  · rw [align]
    split
    · next h =>
      constructor
      · intro h2
        simpa [List.length_eq_zero] using h
      · intro h2
        rfl
    · next h =>
      constructor
      · intro hc
        cases hc
      · intro hc
        exact absurd (by simpa [List.length_eq_zero] using hc) h
  · intro e he
    rw [align] at he
    split at he
    · injection he with h2
      exact h2.symm
    · cases he

/-- Concrete instances of claim C4: the three empty-input calls fail
with the InvalidInput error. -/
theorem claim_C4_empty_input_failure_witness :
    align ([] : List Token) ["a"] none = Except.error invalidInputMsg
    ∧ align ["a"] ([] : List Token) none = Except.error invalidInputMsg
    ∧ align ([] : List Token) ([] : List Token) none = Except.error invalidInputMsg :=
  ⟨(claim_C4_empty_input_failure [] ["a"] none).1.mpr (Or.inl rfl),
   (claim_C4_empty_input_failure ["a"] [] none).1.mpr (Or.inr rfl),
   (claim_C4_empty_input_failure [] [] none).1.mpr (Or.inl rfl)⟩

theorem alignSetGo_mem (seqs : List (List Token)) (tbl : Option ScoreTable) :
    ∀ ps m, alignSetGo seqs tbl ps = Except.ok m →
      ∀ q ∈ m, align (seqs.getD q.1.1 []) (seqs.getD q.1.2 []) tbl = Except.ok q.2 := by
  intro ps
  induction ps with
  | nil =>
    intro m hm q hq
    injection hm with h2
    subst h2
    cases hq
  | cons p rest ih =>
    intro m hm q hq
    rw [alignSetGo] at hm
    cases hca : align (seqs.getD p.1 []) (seqs.getD p.2 []) tbl with
    | error e =>
      rw [hca] at hm
      cases hm
    | ok r =>
      rw [hca] at hm
      cases hgo : alignSetGo seqs tbl rest with
      | error e =>
        rw [hgo] at hm
        cases hm
      | ok m2 =>
        rw [hgo] at hm
        injection hm with h2
        subst h2
        rcases List.mem_cons.mp hq with hq2 | hq2
        · subst hq2
          exact hca
        · exact ih m2 hgo q hq2

/-- Claim C5: for every collection of k non-empty sequences,
`align_set` returns exactly k(k-1)/2 entries, keyed by the index pairs
(i, j) with i < j, and each entry equals the direct `align` of that
pair under the same configuration. -/
theorem claim_C5_batch_equals_direct (seqs : List (List Token)) (tbl : Option ScoreTable)
    (h : ∀ s ∈ seqs, s ≠ []) :
    (align_set seqs tbl).map (fun m => m.map Prod.fst) = Except.ok (pairKeys seqs.length)
    ∧ (align_set seqs tbl).map List.length =
        Except.ok (seqs.length * (seqs.length - 1) / 2)
    ∧ ∀ m, align_set seqs tbl = Except.ok m →
        ∀ q ∈ m, align (seqs.getD q.1.1 []) (seqs.getD q.1.2 []) tbl = Except.ok q.2 := by
  have hall : ∀ p ∈ pairKeys seqs.length,
      ∃ r, align (seqs.getD p.1 []) (seqs.getD p.2 []) tbl = Except.ok r := by
    intro p hp
    obtain ⟨x, y⟩ := p
    have hxy := mem_pairKeys.mp hp
    have hmem1 : seqs.getD x [] ∈ seqs := by
      rw [List.getD_eq_getElem seqs [] (by omega)]
      exact List.getElem_mem _
    have hmem2 : seqs.getD y [] ∈ seqs := by
      rw [List.getD_eq_getElem seqs [] hxy.2]
      exact List.getElem_mem _
    have hne1 := h _ hmem1
    have hne2 := h _ hmem2
    refine ⟨{ steps := (alignSteps (seqs.getD x []) (seqs.getD y []) tbl).map stepTag,
              score := alignScore (seqs.getD x []) (seqs.getD y []) tbl }, ?_⟩
    rw [align, if_neg (by
      simp only [List.length_eq_zero, not_or]
      exact ⟨hne1, hne2⟩)]
  obtain ⟨m, hm, hkeys, hentries⟩ := alignSetGo_ok seqs tbl (pairKeys seqs.length) hall
  have hset : align_set seqs tbl = Except.ok m := hm
  refine ⟨?_, ?_, ?_⟩
  · rw [hset]
    simp [Except.map, hkeys]
  · rw [hset]
    have hlen : m.length = seqs.length * (seqs.length - 1) / 2 := by
      have h2 := congrArg List.length hkeys
      rw [List.length_map] at h2
      rw [h2, length_pairKeys]
    simp [Except.map, hlen]
  · intro m2 hm2
    rw [hset] at hm2
    injection hm2 with h2
    subst h2
    exact hentries

/-- Concrete instance of claim C5 on the two sequences ["A"], ["B"]. -/
theorem claim_C5_batch_equals_direct_witness :
    (align_set [["A"], ["B"]] none).map (fun m => m.map Prod.fst) = Except.ok [(0, 1)]
    ∧ (align_set [["A"], ["B"]] none).map List.length = Except.ok 1
    ∧ align ["A"] ["B"] none = Except.ok { steps := [0], score := -1 } := by
  have h := claim_C5_batch_equals_direct [["A"], ["B"]] none (by decide)
  refine ⟨h.1, h.2.1, ?_⟩
  exact h.2.2 [((0, 1), { steps := [0], score := -1 })] (by rfl)
    ((0, 1), { steps := [0], score := -1 }) (by simp)

/-- Claim C6: for every successful alignment, the Align/Delete steps'
x-indices enumerate 0..len(a) exactly once each in order, the
Align/Insert steps' y-indices enumerate 0..len(b) exactly once each in
order, and step indices are monotonically non-decreasing. -/
theorem claim_C6_step_coverage (a b : List Token) (tbl : Option ScoreTable)
    (r : AlignmentResult) (h : align a b tbl = Except.ok r) :
    (alignSteps a b tbl).filterMap stepX = List.range a.length
    ∧ (alignSteps a b tbl).filterMap stepY = List.range b.length
    ∧ (alignSteps a b tbl).countP (fun s => (stepX s).isSome) = a.length
    ∧ (alignSteps a b tbl).countP (fun s => (stepY s).isSome) = b.length
    ∧ List.Pairwise stepLE (alignSteps a b tbl)
    ∧ r.steps = (alignSteps a b tbl).map stepTag := by
  obtain ⟨ha, hb, hr⟩ := (align_ok_iff a b tbl r).mp h
  subst hr
  have hX : (alignSteps a b tbl).filterMap stepX = List.range a.length :=
    traceback_filterMap_stepX (cmpFn a b tbl) (-1) a.length b.length
  have hY : (alignSteps a b tbl).filterMap stepY = List.range b.length :=
    traceback_filterMap_stepY (cmpFn a b tbl) (-1) a.length b.length
  refine ⟨hX, hY, ?_, ?_,
    traceback_pairwise (cmpFn a b tbl) (-1) a.length b.length, rfl⟩
  · rw [← length_filterMap_eq_countP stepX, hX, List.length_range]
  · rw [← length_filterMap_eq_countP stepY, hY, List.length_range]

/-- Concrete instance of claim C6 at a = ["A"], b = ["B"]. -/
theorem claim_C6_step_coverage_witness :
    align ["A"] ["B"] none = Except.ok { steps := [0], score := -1 }
    ∧ (alignSteps ["A"] ["B"] none).filterMap stepX = List.range 1
    ∧ (alignSteps ["A"] ["B"] none).filterMap stepY = List.range 1 := by
  have h := claim_C6_step_coverage ["A"] ["B"] none { steps := [0], score := -1 } (by rfl)
  exact ⟨by rfl, h.1, h.2.1⟩

/-- Claim C7: aligning a non-empty sequence with itself under the
default scoring yields only Align steps (tags all 0, one per token) and
score len(a) * match_score = len(a). -/
theorem claim_C7_self_alignment (a : List Token) (h : a ≠ []) :
    align a a none = Except.ok { steps := List.replicate a.length 0,
                                 score := (a.length : Int) } := by
  have hcmp : ∀ i j, cmpFn a a none i j ≤ 1 := by
    intro i j
    show (if a.getD i "" = a.getD j "" then 1 else -1 : Int) ≤ 1
    split <;> omega
  have hdiag : ∀ i, cmpFn a a none i i = 1 := by
    intro i
    show (if a.getD i "" = a.getD i "" then 1 else -1 : Int) = 1
    simp
  have hne : ¬(a.length = 0 ∨ a.length = 0) := by
    simp [List.length_eq_zero, h]
  rw [align, if_neg hne]
  have hsteps : (alignSteps a a none).map stepTag = List.replicate a.length 0 := by
    unfold alignSteps
    rw [traceback_diag (cmpFn a a none) hcmp hdiag a.length, List.map_map]
    have hconst : ∀ t : Nat, (stepTag ∘ fun u => Step.align u u) t = 0 := fun t => rfl
    rw [map_const_replicate _ 0 hconst, List.length_range]
  have hscore : alignScore a a none = (a.length : Int) := by
    unfold alignScore
    exact Hmat_diag (cmpFn a a none) hcmp hdiag a.length
  rw [hsteps, hscore]

/-- Concrete instance of claim C7 at a = ["A", "B"]. -/
theorem claim_C7_self_alignment_witness :
    (["A", "B"] : List Token) ≠ []
    ∧ align ["A", "B"] ["A", "B"] none =
        Except.ok { steps := List.replicate 2 0, score := (2 : Int) } :=
  ⟨by simp, claim_C7_self_alignment ["A", "B"] (by simp)⟩

/-- Claim C8: if any pair of the batch fails matrix construction,
`align_set` returns that pair's error and no mapping at all. -/
theorem claim_C8_batch_all_or_nothing (seqs : List (List Token)) (tbl : Option ScoreTable)
    (h : ∃ p ∈ pairKeys seqs.length, ∃ e,
      align (seqs.getD p.1 []) (seqs.getD p.2 []) tbl = Except.error e) :
    ∃ e, align_set seqs tbl = Except.error e
      ∧ (∃ p ∈ pairKeys seqs.length,
          align (seqs.getD p.1 []) (seqs.getD p.2 []) tbl = Except.error e)
      ∧ ∀ m, align_set seqs tbl ≠ Except.ok m := by
  obtain ⟨e, hgo, p, hp, he⟩ := alignSetGo_error seqs tbl (pairKeys seqs.length) h
  have hset : align_set seqs tbl = Except.error e := hgo
  refine ⟨e, hset, ⟨p, hp, he⟩, ?_⟩
  intro m hm
  rw [hset] at hm
  cases hm

/-- Concrete instance of claim C8: an empty sequence in the batch makes
`align_set` return the InvalidInput error instead of a mapping. -/
theorem claim_C8_batch_all_or_nothing_witness :
    align_set [([] : List Token), ["A"]] none = Except.error invalidInputMsg := by
  obtain ⟨e, hset, ⟨p, hp, he⟩, hnone⟩ :=
    claim_C8_batch_all_or_nothing [[], ["A"]] none
      ⟨(0, 1), by decide, invalidInputMsg, by rfl⟩
  have hp2 : p = (0, 1) := by
    have hpk : pairKeys 2 = [(0, 1)] := by rfl
    rw [show List.length [([] : List Token), ["A"]] = 2 from rfl, hpk] at hp
    simpa using hp
  subst hp2
  have h4 : (Except.error invalidInputMsg : Except String AlignmentResult) =
      Except.error e := (by rfl : align (([([] : List Token), ["A"]]).getD 0 [])
        (([([] : List Token), ["A"]]).getD 1 []) none =
        Except.error invalidInputMsg).symm.trans he
  injection h4 with h5
  rw [hset, ← h5]

/-- Claim C9: when the optimal alignment contains no Align step on
literally equal tokens, the derived similarity score is the sentinel
value -1. -/
theorem claim_C9_no_match_sentinel (a b : List Token) (tbl : Option ScoreTable)
    (h : ∀ x y, Step.align x y ∈ alignSteps a b tbl → a.getD x "" ≠ b.getD y "") :
    evaluate tbl a b (alignSteps a b tbl) (alignScore a b tbl) = -1 := by
  have hfilter : ((alignedPairs (alignSteps a b tbl)).filter
      fun p => a.getD p.1 "" = b.getD p.2 "") = [] := by
    rw [List.filter_eq_nil_iff]
    intro p hp
    obtain ⟨x, y⟩ := p
    have hmem := mem_alignedPairs.mp hp
    simp only [decide_eq_true_eq]
    exact h x y hmem
  simp only [evaluate]
  rw [hfilter]
  simp

/-- Concrete instance of claim C9 at a = ["x"], b = ["y"]. -/
theorem claim_C9_no_match_sentinel_witness :
    evaluate none ["x"] ["y"] (alignSteps ["x"] ["y"] none)
      (alignScore ["x"] ["y"] none) = -1 := by
  refine claim_C9_no_match_sentinel ["x"] ["y"] none ?_
  intro x y hmem
  rw [show alignSteps ["x"] ["y"] none = [Step.align 0 0] from rfl] at hmem
  simp at hmem
  obtain ⟨rfl, rfl⟩ := hmem
  decide

/-- Claim C10: the exposed steps of every successful `align` or
`align_set` result are byte tags equal to 0 (Align), 1 (Delete) or
2 (Insert); the per-step position indices are dropped by the tag
projection. -/
theorem claim_C10_tags_only :
    (∀ a b tbl r, align a b tbl = Except.ok r →
      r.steps = (alignSteps a b tbl).map stepTag
      ∧ ∀ t ∈ r.steps, t = 0 ∨ t = 1 ∨ t = 2)
    ∧ ∀ seqs tbl m, align_set seqs tbl = Except.ok m →
      ∀ q ∈ m, ∀ t ∈ q.2.steps, t = 0 ∨ t = 1 ∨ t = 2 := by
  have htag : ∀ steps : List Step, ∀ t ∈ steps.map stepTag, t = 0 ∨ t = 1 ∨ t = 2 := by
    intro steps t ht
    rw [List.mem_map] at ht
    obtain ⟨s, hs, rfl⟩ := ht
    cases s <;> simp [stepTag]
  constructor
  · intro a b tbl r h
    obtain ⟨ha, hb, hr⟩ := (align_ok_iff a b tbl r).mp h
    subst hr
    exact ⟨rfl, htag _⟩
  · intro seqs tbl m hm q hq
    have hok := alignSetGo_mem seqs tbl (pairKeys seqs.length) m hm q hq
    obtain ⟨ha, hb, hr⟩ := (align_ok_iff _ _ _ _).mp hok
    rw [hr]
    exact htag _

/-- Concrete instance of claim C10 at a = ["A"], b = ["B"]. -/
theorem claim_C10_tags_only_witness :
    (AlignmentResult.mk [0] (-1)).steps = (alignSteps ["A"] ["B"] none).map stepTag
    ∧ (0 = 0 ∨ 0 = 1 ∨ 0 = 2) := by
  have h := claim_C10_tags_only.1 ["A"] ["B"] none (AlignmentResult.mk [0] (-1)) (by rfl)
  exact ⟨h.1, h.2 0 (by simp)⟩
